import Mathlib

/-!
golibfb2: the FB2 import pipeline, its store and its exporter

A shallow embedding of `internal/parser`, `internal/db`, `internal/pipeline`
and `internal/hugo`, followed by the properties proved about it.

Modelling conventions.

* A Go `string` is a list of Unicode code points (`Str`).  Every string the
  program handles comes out of `encoding/xml` or out of an archive header and
  the byte-level functions used (`strings.Join`, `strings.Split` on `","`,
  `strings.ReplaceAll` on `" "`, `filepath.Ext`) only look for ASCII bytes, so
  the two views agree.  A nil slice and an empty slice are both `[]`.
* Calls that leave the repository (`xml.Unmarshal`, `sevenzip.OpenReader`,
  `f.Open`, `ioutil.ReadAll`, the failure of `db.Exec`, the Unicode case
  table) are parameters or data of the model.
* The SQLite table `books` is a list of rows plus the `AUTOINCREMENT`
  counter; a statement is a function on that state.
* Log output is recorded as the `Outcome` of a worker iteration.
-/

namespace Golibfb2

/-- A Go string, as its sequence of code points. -/
abbrev Str := List Char

/-- A Go byte slice. -/
abbrev Bytes := List Nat

/-! ## Go standard library functions used by the repository -/

/-- Go `unicode.IsSpace`: the Latin-1 cases are spelled out in the Go source,
the others are the code points of the Unicode `White_Space` property. -/
def IsSpace (r : Char) : Bool :=
  let n := r.toNat
  if n ≤ 0xFF then
    n = 0x09 || n = 0x0A || n = 0x0B || n = 0x0C || n = 0x0D || n = 0x20 || n = 0x85 || n = 0xA0
  else
    n = 0x1680 || (0x2000 ≤ n && n ≤ 0x200A) || n = 0x2028 || n = 0x2029 || n = 0x202F
      || n = 0x205F || n = 0x3000

/-- Go `strings.TrimSpace`: all leading and trailing white space removed. -/
def TrimSpace (s : Str) : Str :=
  ((s.dropWhile IsSpace).reverse.dropWhile IsSpace).reverse

/-- Go `strings.Join`: the first element, then each further element preceded
by the separator; the empty string for no elements. -/
def Join (elems : List Str) (sep : Str) : Str :=
  match elems with
  | [] => []
  | e :: rest => rest.foldl (fun b s => b ++ sep ++ s) e

/-- Go `strings.Split` for a one-character separator (the repository only
splits on `","`): the substrings between the separators, so one more piece
than there are separators. -/
def Split : Str → Char → List Str
  | [], _ => [[]]
  | c :: cs, sep =>
    if c = sep then [] :: Split cs sep
    else
      match Split cs sep with
      | [] => [[c]]
      | piece :: pieces => (c :: piece) :: pieces

/-- Go `strings.ReplaceAll` for a one-character pattern and replacement (the
repository only replaces `" "` by `"-"`). -/
def ReplaceAll (s : Str) (old new : Char) : Str :=
  s.map (fun c => if c = old then new else c)

/-- Go `unicode.ToLower`: ASCII is handled inline, every other code point goes
through the Unicode case table, which is the parameter `caseTable`. -/
def unicodeToLower (caseTable : Char → Char) (r : Char) : Char :=
  if r.toNat ≤ 0x7F then
    if 'A'.toNat ≤ r.toNat ∧ r.toNat ≤ 'Z'.toNat then Char.ofNat (r.toNat + ('a'.toNat - 'A'.toNat))
    else r
  else caseTable r

/-- Go `strings.ToLower`: every code point mapped by `unicode.ToLower`. -/
def ToLower (caseTable : Char → Char) (s : Str) : Str :=
  s.map (unicodeToLower caseTable)

/-- The scan of Go `filepath.Ext` over the path read backwards: stop at the
first path separator, return the suffix from the first dot met. -/
def extScan : Str → Str → Str
  | [], _ => []
  | c :: before, after =>
    if c = '/' then []
    else if c = '.' then c :: after
    else extScan before (c :: after)

/-- Go `filepath.Ext` (Unix): the suffix beginning at the final dot in the
final element of the path, empty if there is no dot. -/
def Ext (path : Str) : Str := extScan path.reverse []

/-- The digit loop of Go `strconv.FormatInt` in base ten: the last digit is
`n % 10`, the digits before it are those of `n / 10`.  `fuel` bounds the number
of digits. -/
def decimalDigits : Nat → Nat → Str
  | 0, _ => []
  | fuel + 1, n =>
    if n < 10 then [Nat.digitChar n]
    else decimalDigits fuel (n / 10) ++ [Nat.digitChar (n % 10)]

/-- Decimal digits of a natural number, most significant first. -/
def natDecimal (n : Nat) : Str := decimalDigits (n + 1) n

/-- Go `fmt` verb `%d` on an `int`. -/
def formatInt (i : Int) : Str :=
  if i < 0 then '-' :: natDecimal i.natAbs else natDecimal i.natAbs

/-! ## internal/models -/

/-- Go `models.Book`. -/
structure Book where
  ID : Int
  Title : Str
  Authors : List Str
  Genres : List Str
  Language : Str
  Annotation : Str
  CoverData : Bytes
  FileName : Str
  Tags : List Str
  Series : Str
  SeriesNumber : Int
  Size : Int
  ArchivePath : Str
  DateAdded : Str
  deriving DecidableEq, Repr

/-! ## internal/db -/

/-- Go `serializeStringSlice`. -/
def serializeStringSlice (slice : List Str) : Str := Join slice [',']

/-- Go `deserializeStringSlice`. -/
def deserializeStringSlice (data : Str) : List Str :=
  if data = [] then [] else Split data ','

/-- One row of the table `books` created by `createSchema`.  The three list
columns hold the serialized text. -/
structure Row where
  book_id : Nat
  title : Str
  authors : Str
  genres : Str
  language : Str
  annotation : Str
  cover_data : Bytes
  file_name : Str
  tags : Str
  series : Str
  series_number : Int
  size : Int
  archive_path : Str
  date_added : Str
  deriving DecidableEq, Repr

/-- The database behind a `*sql.DB`: the rows of `books` in scan order and the
`AUTOINCREMENT` counter SQLite keeps for the table. -/
structure DB where
  rows : List Row
  seq : Nat
  deriving DecidableEq, Repr

/-- The constraints `createSchema` declares: `book_id` is the primary key and
`file_name` is `UNIQUE`. -/
def DB.Valid (db : DB) : Prop :=
  (db.rows.map (fun r => r.book_id)).Nodup ∧ (db.rows.map (fun r => r.file_name)).Nodup

instance (db : DB) : Decidable db.Valid := by
  unfold DB.Valid
  exact inferInstance

/-- Lookup through the unique index on `file_name`. -/
def DB.find (db : DB) (name : Str) : Option Row :=
  db.rows.find? (fun r => decide (r.file_name = name))

/-- The rowid an `AUTOINCREMENT` table hands out next: one more than the
largest rowid ever used. -/
def DB.nextRowid (db : DB) : Nat :=
  max db.seq (db.rows.foldl (fun m r => max m r.book_id) 0) + 1

/-- The row the `VALUES` clause of `InsertBook` proposes (SQL `excluded`). -/
def excludedRow (rowid : Nat) (book : Book) : Row :=
  { book_id := rowid
    title := book.Title
    authors := serializeStringSlice book.Authors
    genres := serializeStringSlice book.Genres
    language := book.Language
    annotation := book.Annotation
    cover_data := book.CoverData
    file_name := book.FileName
    tags := serializeStringSlice book.Tags
    series := book.Series
    series_number := book.SeriesNumber
    size := book.Size
    archive_path := book.ArchivePath
    date_added := book.DateAdded }

/-- The `DO UPDATE SET` clause of `InsertBook`, applied to the conflicting row:
twelve columns are taken from `excluded`, `book_id` and `file_name` stay. -/
def doUpdateSet (r excluded : Row) : Row :=
  { r with
    title := excluded.title
    authors := excluded.authors
    genres := excluded.genres
    language := excluded.language
    annotation := excluded.annotation
    cover_data := excluded.cover_data
    tags := excluded.tags
    series := excluded.series
    series_number := excluded.series_number
    size := excluded.size
    archive_path := excluded.archive_path
    date_added := excluded.date_added }

/-- The statement of `InsertBook` as SQLite runs it: a rowid is drawn, the
unique index on `file_name` is probed, and either the conflicting row (found by
its rowid) is updated or the proposed row is appended.  The counter advances
in both cases. -/
def execUpsert (db : DB) (book : Book) : DB :=
  let rowid := db.nextRowid
  let excluded := excludedRow rowid book
  match db.find excluded.file_name with
  | some old =>
    { rows := db.rows.map (fun r => if r.book_id = old.book_id then doUpdateSet r excluded else r)
      seq := rowid }
  | none =>
    { rows := db.rows ++ [excluded]
      seq := rowid }

/-- Go `InsertBook`.  `execErr book` is the error `db.Exec` returns for the
statement bound to `book` when the driver or the connection fails; a failed
statement leaves the database as it was. -/
def InsertBook (execErr : Book → Option Str) (db : DB) (book : Book) : Except Str DB :=
  match execErr book with
  | some err => .error err
  | none => .ok (execUpsert db book)

/-- The `rows.Scan` of `GetAllBooks` on one row. -/
def scanRow (r : Row) : Book :=
  { ID := Int.ofNat r.book_id
    Title := r.title
    Authors := deserializeStringSlice r.authors
    Genres := deserializeStringSlice r.genres
    Language := r.language
    Annotation := r.annotation
    CoverData := r.cover_data
    FileName := r.file_name
    Tags := deserializeStringSlice r.tags
    Series := r.series
    SeriesNumber := r.series_number
    Size := r.size
    ArchivePath := r.archive_path
    DateAdded := r.date_added }

/-- Go `GetAllBooks`: every row of the table, scanned into a `Book`. -/
def GetAllBooks (db : DB) : List Book := db.rows.map scanRow

/-- A row without its store-assigned identifier. -/
def Row.content (r : Row) : Row := { r with book_id := 0 }

/-- Two stores hold the same records: the same number of rows and, under every
entry name, rows that agree on every column except `book_id`. -/
def SameRecords (a b : DB) : Prop :=
  a.rows.length = b.rows.length ∧
    ∀ name : Str, (a.find name).map Row.content = (b.find name).map Row.content

/-! ## internal/parser -/

/-- Go `parser.Author`. -/
structure Author where
  FirstName : Str
  MiddleName : Str
  LastName : Str
  deriving DecidableEq, Repr

/-- Go `parser.Annotation`. -/
structure Annotation where
  Text : Str
  deriving DecidableEq, Repr

/-- Go `parser.Image`. -/
structure Image where
  Href : Str
  deriving DecidableEq, Repr

/-- Go `parser.Coverpage`. -/
structure Coverpage where
  Image : Image
  deriving DecidableEq, Repr

/-- Go `parser.TitleInfo`. -/
structure TitleInfo where
  BookTitle : Str
  Authors : List Author
  Genres : List Str
  Lang : Str
  Annotation : Annotation
  Coverpage : Coverpage
  deriving DecidableEq, Repr

/-- Go `parser.Description`. -/
structure Description where
  TitleInfo : TitleInfo
  deriving DecidableEq, Repr

/-- Go `parser.FictionBook`. -/
structure FictionBook where
  Description : Description
  deriving DecidableEq, Repr

/-- The body of the author loop of `ParseFB2` up to the join: the three
conditional appends to `fullName`. -/
def fullName (a : Author) : List Str :=
  let fullName : List Str := []
  let fullName := if a.FirstName ≠ [] then fullName ++ [a.FirstName] else fullName
  let fullName := if a.MiddleName ≠ [] then fullName ++ [a.MiddleName] else fullName
  let fullName := if a.LastName ≠ [] then fullName ++ [a.LastName] else fullName
  fullName

/-- Go `ParseFB2`, with `xml.Unmarshal` into a `FictionBook` as a parameter. -/
def ParseFB2 (Unmarshal : Bytes → Except Str FictionBook) (data : Bytes) : Except Str Book :=
  match Unmarshal data with
  | .error err => .error err
  | .ok fb =>
    let ti := fb.Description.TitleInfo
    if TrimSpace ti.BookTitle = [] then .error "missing book title".toList
    else
      let authors := ti.Authors.foldl (fun authors a => authors ++ [Join (fullName a) [' ']]) []
      let annotation := TrimSpace ti.Annotation.Text
      .ok
        { ID := 0
          Title := ti.BookTitle
          Authors := authors
          Genres := ti.Genres
          Language := ti.Lang
          Annotation := annotation
          CoverData := []
          FileName := []
          Tags := []
          Series := []
          SeriesNumber := 0
          Size := 0
          ArchivePath := []
          DateAdded := [] }

/-! ## internal/pipeline -/

/-- A `*sevenzip.File` as the worker sees it: its name, and what `f.Open()`
returns, a reader being represented by what `ioutil.ReadAll` returns on it. -/
structure File where
  Name : Str
  Open : Except Str (Except Str Bytes)

/-- How one iteration of the worker loop ended; each constructor is one of the
`continue` statements, or the final log line, of the loop body. -/
inductive Outcome where
  | skipped
  | openFailed (err : Str)
  | readFailed (err : Str)
  | parseFailed (err : Str)
  | insertFailed (err : Str)
  | processed
  deriving DecidableEq, Repr

/-- An iteration ended in one of the four logged failures. -/
def Outcome.isFailure : Outcome → Bool
  | .openFailed _ => true
  | .readFailed _ => true
  | .parseFailed _ => true
  | .insertFailed _ => true
  | _ => false

/-- The body of the worker loop of `ProcessArchive` for one received file. -/
def processFile (Unmarshal : Bytes → Except Str FictionBook) (execErr : Book → Option Str)
    (db : DB) (f : File) : DB × Outcome :=
  if Ext f.Name ≠ ".fb2".toList then (db, .skipped)
  else
    match f.Open with
    | .error err => (db, .openFailed err)
    | .ok rc =>
      match rc with
      | .error err => (db, .readFailed err)
      | .ok data =>
        match ParseFB2 Unmarshal data with
        | .error err => (db, .parseFailed err)
        | .ok book =>
          let book := { book with FileName := f.Name }
          match InsertBook execErr db book with
          | .error err => (db, .insertFailed err)
          | .ok db1 => (db1, .processed)

/-- The store after the worker iterations for `files` have taken effect in
that order. -/
def runWorkers (Unmarshal : Bytes → Except Str FictionBook) (execErr : Book → Option Str)
    (db : DB) (files : List File) : DB :=
  files.foldl (fun d f => (processFile Unmarshal execErr d f).1) db

/-- Go `ProcessArchive`.  The four workers share nothing but the database, and
an iteration touches it through one atomic statement, so a run is determined by
the order in which the iterations take effect: `sched` maps the producer order
`archiveReader.File` to that order (a permutation of it).  The result is the
returned error and the database left behind. -/
def ProcessArchive (OpenReader : Str → Except Str (List File))
    (Unmarshal : Bytes → Except Str FictionBook) (execErr : Book → Option Str)
    (sched : List File → List File) (archivePath : Str) (db : DB) : Option Str × DB :=
  match OpenReader archivePath with
  | .error err => (some err, db)
  | .ok files => (none, runWorkers Unmarshal execErr db (sched files))

/-! ## internal/hugo -/

/-- Go `safeFileName`. -/
def safeFileName (caseTable : Char → Char) (name : Str) : Str :=
  let safe := ReplaceAll name ' ' '-'
  ToLower caseTable safe

/-- The folder name `ExportToHugo` formats for a book with `"%s_%d"`. -/
def bookDirName (caseTable : Char → Char) (book : Book) : Str :=
  safeFileName caseTable book.Title ++ ['_'] ++ formatInt book.ID

/-- The folder names `ExportToHugo` creates under `content/books`, one per
book returned by `GetAllBooks`. -/
def ExportToHugo (caseTable : Char → Char) (db : DB) : List Str :=
  (GetAllBooks db).map (bookDirName caseTable)

/-! ## Notions used to state and prove the properties -/

/-- The book a worker iteration hands to the statement and the driver runs:
none for an entry that is skipped or fails. -/
def storedBook (Unmarshal : Bytes → Except Str FictionBook) (execErr : Book → Option Str)
    (f : File) : Option Book :=
  if Ext f.Name = ".fb2".toList then
    match f.Open with
    | .ok (.ok data) =>
      match ParseFB2 Unmarshal data with
      | .ok book =>
        if execErr { book with FileName := f.Name } = none then
          some { book with FileName := f.Name }
        else none
      | .error _ => none
    | _ => none
  else none

/-- The statement of `InsertBook` run for each book of a list, in order. -/
def upsertAll (db : DB) (books : List Book) : DB := books.foldl execUpsert db

/-- The last book of a list written under a given entry name. -/
def latest (books : List Book) (name : Str) : Option Book :=
  books.reverse.find? (fun b => decide (b.FileName = name))

/-- An archive entry that opens and reads without error, given by its name and
its bytes. -/
def File.ofBytes (e : Str × Bytes) : File :=
  { Name := e.1, Open := .ok (.ok e.2) }

/-- A driver that never fails. -/
def noExecErr : Book → Option Str := fun _ => none

/-- The record of an entry, obtained without the pipeline: `ParseFB2` of the
bytes of an entry whose name ends in `.fb2`, under the entry name; none when
the suffix is missing or the bytes do not parse. -/
def extract (Unmarshal : Bytes → Except Str FictionBook) (e : Str × Bytes) : Option Book :=
  if ".fb2".toList <:+ e.1 then
    match ParseFB2 Unmarshal e.2 with
    | .ok book => some { book with FileName := e.1 }
    | .error _ => none
  else none

/-! ## Concrete inputs -/

/-- A stand-in for `xml.Unmarshal` on concrete inputs: a document starting with
the byte 0 is malformed, any other document decodes to a book whose title is
the bytes read as code points and which has no other metadata. -/
def demoUnmarshal : Bytes → Except Str FictionBook
  | 0 :: _ => .error "XML syntax error".toList
  | data =>
    .ok
      { Description :=
          { TitleInfo :=
              { BookTitle := data.map Char.ofNat
                Authors := []
                Genres := []
                Lang := []
                Annotation := { Text := [] }
                Coverpage := { Image := { Href := [] } } } } }

/-- A decoded document with two authors, the second without any name part. -/
def demoFictionBook : FictionBook :=
  { Description :=
      { TitleInfo :=
          { BookTitle := "War and Peace".toList
            Authors :=
              [ { FirstName := "Leo".toList, MiddleName := [], LastName := "Tolstoy".toList },
                { FirstName := [], MiddleName := [], LastName := [] } ]
            Genres := ["prose".toList, "history".toList]
            Lang := "ru".toList
            Annotation := { Text := " A novel. ".toList }
            Coverpage := { Image := { Href := "#cover.jpg".toList } } } } }

/-- A store without rows. -/
def emptyDB : DB := { rows := [], seq := 0 }

/-- A row filed under `a.fb2`. -/
def demoRow : Row :=
  { book_id := 1, title := "Old".toList, authors := "Ann".toList, genres := [], language := [],
    annotation := [], cover_data := [], file_name := "a.fb2".toList, tags := [], series := [],
    series_number := 0, size := 0, archive_path := [], date_added := [] }

/-- A store holding one row, filed under `a.fb2`. -/
def demoDB : DB := { rows := [demoRow], seq := 1 }

/-- A book filed under `a.fb2`, one of whose authors holds a comma. -/
def demoBook : Book :=
  { ID := 0, Title := "Foo".toList, Authors := ["Lee, Ann".toList], Genres := ["sf".toList],
    Language := "en".toList, Annotation := [], CoverData := [], FileName := "a.fb2".toList,
    Tags := [], Series := [], SeriesNumber := 0, Size := 0, ArchivePath := [], DateAdded := [] }

/-- Four entries: `a.fb2` titled `Foo`, `b.fb2` with an empty title, `c.txt`,
and `d.fb2` titled `Bar`. -/
def demoEntries : List (Str × Bytes) :=
  [("a.fb2".toList, [70, 111, 111]), ("b.fb2".toList, []), ("c.txt".toList, [88]),
    ("d.fb2".toList, [66, 97, 114])]

/-- Two entries with the same name `a.fb2` and different contents, titled `X`
and `Y`. -/
def dupFiles : List File :=
  [File.ofBytes ("a.fb2".toList, [88]), File.ofBytes ("a.fb2".toList, [89])]

/-- An entry that cannot be opened. -/
def brokenFile : File := { Name := "x.fb2".toList, Open := .error "corrupt entry".toList }

/-! ## Join and Split -/

theorem foldl_join_append (sep : Str) (rest : List Str) (p x : Str) :
    rest.foldl (fun b s => b ++ sep ++ s) (p ++ x) = p ++ rest.foldl (fun b s => b ++ sep ++ s) x := by
  induction rest generalizing x with
  | nil => rfl
  | cons y ys ih =>
    simp only [List.foldl_cons]
    rw [List.append_assoc, List.append_assoc, ← List.append_assoc x, ih]

theorem Join_cons_cons (a b : Str) (rest : List Str) (sep : Str) :
    Join (a :: b :: rest) sep = a ++ sep ++ Join (b :: rest) sep := by
  simp only [Join, List.foldl_cons]
  rw [foldl_join_append]

theorem Split_of_not_mem (s : Str) (sep : Char) (h : sep ∉ s) : Split s sep = [s] := by
  induction s with
  | nil => rfl
  | cons c cs ih =>
    have hc : c ≠ sep := fun e => h (by simp [e])
    have hcs : sep ∉ cs := fun e => h (List.mem_cons_of_mem _ e)
    unfold Split
    rw [if_neg hc, ih hcs]

theorem Split_append_sep (a s : Str) (sep : Char) (h : sep ∉ a) :
    Split (a ++ sep :: s) sep = a :: Split s sep := by
  induction a with
  | nil => simp [Split]
  | cons c cs ih =>
    have hc : c ≠ sep := fun e => h (by simp [e])
    have hcs : sep ∉ cs := fun e => h (List.mem_cons_of_mem _ e)
    rw [List.cons_append]
    conv_lhs => unfold Split
    rw [if_neg hc, ih hcs]

theorem not_mem_of_mem_Split (s : Str) (sep : Char) : ∀ piece ∈ Split s sep, sep ∉ piece := by
  induction s with
  | nil => simp [Split]
  | cons c cs ih =>
    unfold Split
    split
    · intro piece hp
      rcases List.mem_cons.1 hp with h | h
      · simp [h]
      · exact ih piece h
    · rename_i hc
      split
      · intro piece hp
        simp only [List.mem_singleton] at hp
        subst hp
        simpa using Ne.symm hc
      · rename_i p ps heq
        intro piece hp
        rw [heq] at ih
        rcases List.mem_cons.1 hp with h | h
        · subst h
          have := ih p (by simp)
          simp only [List.mem_cons, not_or]
          exact ⟨Ne.symm hc, this⟩
        · exact ih piece (List.mem_cons_of_mem _ h)

theorem Split_Join (l : List Str) (sep : Char) (hne : l ≠ []) (h : ∀ x ∈ l, sep ∉ x) :
    Split (Join l [sep]) sep = l := by
  induction l with
  | nil => exact absurd rfl hne
  | cons a rest ih =>
    cases rest with
    | nil => exact Split_of_not_mem a sep (h a (by simp))
    | cons b rest =>
      rw [Join_cons_cons, List.append_assoc, List.singleton_append,
        Split_append_sep _ _ _ (h a (by simp)),
        ih (by simp) (fun x hx => h x (List.mem_cons_of_mem _ hx))]

theorem Join_eq_nil_iff (l : List Str) (sep : Char) : Join l [sep] = [] ↔ l = [] ∨ l = [[]] := by
  cases l with
  | nil => simp [Join]
  | cons a rest =>
    cases rest with
    | nil => simp [Join]
    | cons b rest => rw [Join_cons_cons]; simp

/-- The list encoding of the store reads back what was written exactly when
no element holds a comma and the list is not the single empty string. -/
theorem deserialize_serialize_iff (s : List Str) :
    deserializeStringSlice (serializeStringSlice s) = s ↔
      (∀ x ∈ s, ',' ∉ x) ∧ s ≠ [[]] := by
  unfold deserializeStringSlice serializeStringSlice
  constructor
  · intro h
    by_cases hj : Join s [','] = []
    · rw [if_pos hj] at h
      subst h
      simp
    · rw [if_neg hj] at h
      refine ⟨fun x hx => ?_, fun hs => hj ?_⟩
      · rw [← h] at hx
        exact not_mem_of_mem_Split _ _ x hx
      · rw [hs]; rfl
  · rintro ⟨hc, hs⟩
    by_cases hn : s = []
    · subst hn; rfl
    · have hj : Join s [','] ≠ [] := by
        intro e
        rcases (Join_eq_nil_iff s ',').1 e with h | h
        · exact hn h
        · exact hs h
      rw [if_neg hj]
      exact Split_Join s ',' hn hc

/-! ## The table under the upsert statement -/

theorem le_foldl_max_id (l : List Row) (m : Nat) :
    m ≤ l.foldl (fun m r => max m r.book_id) m ∧
      ∀ r ∈ l, r.book_id ≤ l.foldl (fun m r => max m r.book_id) m := by
  induction l generalizing m with
  | nil => simp
  | cons a t ih =>
    simp only [List.foldl_cons]
    have h := ih (max m a.book_id)
    refine ⟨le_trans (le_max_left _ _) h.1, fun r hr => ?_⟩
    rcases List.mem_cons.1 hr with e | e
    · subst e
      exact le_trans (le_max_right _ _) h.1
    · exact h.2 r e

theorem lt_nextRowid (db : DB) (r : Row) (h : r ∈ db.rows) : r.book_id < db.nextRowid := by
  unfold DB.nextRowid
  have := (le_foldl_max_id db.rows 0).2 r h
  omega

theorem find_some_iff_of_valid (db : DB) (hv : db.Valid) (name : Str) (r : Row) :
    db.find name = some r ↔ r ∈ db.rows ∧ r.file_name = name := by
  constructor
  · intro h
    refine ⟨List.mem_of_find?_eq_some h, ?_⟩
    simpa using List.find?_some h
  · rintro ⟨hm, hn⟩
    cases hf : db.find name with
    | none =>
      have := List.find?_eq_none.1 hf r hm
      simp [hn] at this
    | some r1 =>
      have h1 : r1 ∈ db.rows := List.mem_of_find?_eq_some hf
      have h2 : r1.file_name = name := by simpa using List.find?_some hf
      have := List.inj_on_of_nodup_map hv.2 h1 hm (by rw [h2, hn])
      rw [this]

theorem find_mem (db : DB) (name : Str) (r : Row) (h : db.find name = some r) :
    r ∈ db.rows ∧ r.file_name = name :=
  ⟨List.mem_of_find?_eq_some h, by simpa using List.find?_some h⟩

theorem find_eq_none_iff (db : DB) (name : Str) :
    db.find name = none ↔ ∀ r ∈ db.rows, r.file_name ≠ name := by
  unfold DB.find
  simp

/-- On a valid table the row with the rowid of the conflicting row is the row
with the conflicting name. -/
theorem id_eq_iff_name_eq (db : DB) (hv : db.Valid) (name : Str) (old : Row)
    (ho : db.find name = some old) (r : Row) (hr : r ∈ db.rows) :
    r.book_id = old.book_id ↔ r.file_name = name := by
  obtain ⟨hm, hn⟩ := find_mem db name old ho
  constructor
  · intro h
    have := List.inj_on_of_nodup_map hv.1 hr hm h
    rw [this, hn]
  · intro h
    have := List.inj_on_of_nodup_map hv.2 hr hm (by rw [h, hn])
    rw [this]

/-- The rows after the statement, on a valid table, with the update expressed
through the conflicting name. -/
theorem execUpsert_rows (db : DB) (hv : db.Valid) (book : Book) :
    (execUpsert db book).rows =
      if (db.find book.FileName).isSome then
        db.rows.map (fun r =>
          if r.file_name = book.FileName then doUpdateSet r (excludedRow 0 book) else r)
      else db.rows ++ [excludedRow db.nextRowid book] := by
  unfold execUpsert
  simp only [excludedRow]
  cases ho : db.find book.FileName with
  | none => simp
  | some old =>
    simp only [Option.isSome_some, if_true]
    apply List.map_congr_left
    intro r hr
    have := id_eq_iff_name_eq db hv book.FileName old ho r hr
    by_cases h : r.file_name = book.FileName
    · rw [if_pos h, if_pos (this.2 h)]; rfl
    · rw [if_neg h, if_neg (fun e => h (this.1 e))]

theorem execUpsert_length (db : DB) (book : Book) :
    (execUpsert db book).rows.length =
      if (db.find book.FileName).isSome then db.rows.length else db.rows.length + 1 := by
  unfold execUpsert
  simp only [excludedRow]
  cases ho : db.find book.FileName <;> simp

theorem execUpsert_valid (db : DB) (hv : db.Valid) (book : Book) : (execUpsert db book).Valid := by
  unfold DB.Valid
  rw [execUpsert_rows db hv book]
  cases ho : db.find book.FileName with
  | some old =>
    simp only [Option.isSome_some, if_true, List.map_map]
    have e1 : ((fun r : Row => r.book_id) ∘ fun r : Row =>
        if r.file_name = book.FileName then doUpdateSet r (excludedRow 0 book) else r) =
        fun r => r.book_id := by
      funext r; simp only [Function.comp]; split <;> rfl
    have e2 : ((fun r : Row => r.file_name) ∘ fun r : Row =>
        if r.file_name = book.FileName then doUpdateSet r (excludedRow 0 book) else r) =
        fun r => r.file_name := by
      funext r; simp only [Function.comp]; split <;> rfl
    rw [e1, e2]
    exact hv
  | none =>
    simp only [Option.isSome_none, Bool.false_eq_true, if_false, List.map_append, List.map_cons,
      List.map_nil]
    have hn := (find_eq_none_iff db book.FileName).1 ho
    constructor
    · apply List.Nodup.append hv.1 (List.nodup_singleton _)
      intro a ha hb
      simp only [List.mem_singleton] at hb
      obtain ⟨r, hr, rfl⟩ := List.mem_map.1 ha
      have := lt_nextRowid db r hr
      simp only [excludedRow] at hb
      omega
    · apply List.Nodup.append hv.2 (List.nodup_singleton _)
      intro a ha hb
      simp only [List.mem_singleton] at hb
      obtain ⟨r, hr, rfl⟩ := List.mem_map.1 ha
      exact hn r hr hb

/-- Lookup after the statement: the written name yields the updated or the new
row, every other name yields what it did before. -/
theorem execUpsert_find (db : DB) (hv : db.Valid) (book : Book) (name : Str) :
    (execUpsert db book).find name =
      if name = book.FileName then
        some (match db.find name with
          | some old => doUpdateSet old (excludedRow 0 book)
          | none => excludedRow db.nextRowid book)
      else db.find name := by
  have hrows := execUpsert_rows db hv book
  unfold DB.find at *
  rw [hrows]
  cases ho : List.find? (fun r => decide (r.file_name = book.FileName)) db.rows with
  | some old =>
    simp only [Option.isSome_some, if_true]
    rw [List.find?_map]
    have e : ((fun r : Row => decide (r.file_name = name)) ∘ fun r : Row =>
        if r.file_name = book.FileName then doUpdateSet r (excludedRow 0 book) else r) =
        fun r => decide (r.file_name = name) := by
      funext r; simp only [Function.comp]; split <;> rfl
    rw [e]
    by_cases hn : name = book.FileName
    · subst hn
      rw [ho, if_pos rfl]
      have : old.file_name = book.FileName := by simpa using List.find?_some ho
      simp [this]
    · rw [if_neg hn]
      cases hf : List.find? (fun r => decide (r.file_name = name)) db.rows with
      | none => rfl
      | some r1 =>
        have : r1.file_name = name := by simpa using List.find?_some hf
        simp only [Option.map_some', this, if_neg hn]
  | none =>
    simp only [Option.isSome_none, Bool.false_eq_true, if_false, List.find?_append]
    by_cases hn : name = book.FileName
    · subst hn
      rw [ho, if_pos rfl]
      simp [excludedRow]
    · rw [if_neg hn]
      have : List.find? (fun r => decide (r.file_name = name)) [excludedRow db.nextRowid book]
          = none := by
        simp [excludedRow, Ne.symm hn]
      rw [this]
      simp

theorem content_doUpdateSet (old : Row) (book : Book) (n : Nat)
    (h : old.file_name = book.FileName) :
    (doUpdateSet old (excludedRow n book)).content = excludedRow 0 book := by
  simp only [doUpdateSet, excludedRow, Row.content, h]

/-- Lookup after the statement, identifier aside. -/
theorem execUpsert_find_content (db : DB) (hv : db.Valid) (book : Book) (name : Str) :
    ((execUpsert db book).find name).map Row.content =
      if name = book.FileName then some (excludedRow 0 book)
      else (db.find name).map Row.content := by
  rw [execUpsert_find db hv book name]
  by_cases hn : name = book.FileName
  · simp only [if_pos hn, Option.map_some']
    cases ho : db.find name with
    | none => rfl
    | some old =>
      have := (find_mem db name old ho).2
      simp only
      rw [content_doUpdateSet old book 0 (by rw [this, hn])]
  · simp only [if_neg hn]

theorem InsertBook_ok (execErr : Book → Option Str) (db : DB) (book : Book)
    (hx : execErr book = none) : InsertBook execErr db book = .ok (execUpsert db book) := by
  unfold InsertBook
  rw [hx]

theorem execUpsert_find_self (db : DB) (hv : db.Valid) (book : Book) :
    ∃ id, (execUpsert db book).find book.FileName = some (excludedRow id book) ∧
      (∀ old, db.find book.FileName = some old → id = old.book_id) ∧
      (db.find book.FileName = none → id = db.nextRowid) := by
  have h := execUpsert_find db hv book book.FileName
  rw [if_pos rfl] at h
  cases ho : db.find book.FileName with
  | none =>
    rw [ho] at h
    exact ⟨db.nextRowid, h, by simp, by simp⟩
  | some old =>
    rw [ho] at h
    refine ⟨old.book_id, ?_, by simp, by simp⟩
    rw [h]
    have := (find_mem db _ old ho).2
    simp only [doUpdateSet, excludedRow, this]

theorem execUpsert_mem_other (db : DB) (hv : db.Valid) (book : Book) (r : Row)
    (hr : r.file_name ≠ book.FileName) : r ∈ (execUpsert db book).rows ↔ r ∈ db.rows := by
  rw [execUpsert_rows db hv book]
  cases ho : db.find book.FileName with
  | none =>
    simp only [Option.isSome_none, Bool.false_eq_true, if_false, List.mem_append,
      List.mem_singleton]
    constructor
    · rintro (h | h)
      · exact h
      · exact absurd (by rw [h]; rfl) hr
    · exact Or.inl
  | some old =>
    simp only [Option.isSome_some, if_true, List.mem_map]
    constructor
    · rintro ⟨a, ha, e⟩
      by_cases hn : a.file_name = book.FileName
      · rw [if_pos hn] at e
        exact absurd (by rw [← e]; exact hn) hr
      · rw [if_neg hn] at e
        rw [← e]; exact ha
    · intro h
      exact ⟨r, h, by rw [if_neg hr]⟩

/-- C3. `InsertBook` is an upsert keyed by `file_name`.  On a table that meets
its schema, a statement that the driver runs yields a table that meets the
schema again, in which every row under another name is a row of the old table
and conversely.  If a row with the name of the book existed, the row count is
the same and the row under that name has the old identifier and the values of
the book in every other column; if none existed, exactly one row is appended,
with the values of the book and an identifier no old row has. -/
theorem InsertBook_upsert (execErr : Book → Option Str) (db : DB) (book : Book)
    (hv : db.Valid) (hx : execErr book = none) :
    ∃ db1, InsertBook execErr db book = .ok db1 ∧ db1.Valid ∧
      (∀ r : Row, r.file_name ≠ book.FileName → (r ∈ db1.rows ↔ r ∈ db.rows)) ∧
      (∀ old, db.find book.FileName = some old →
        db1.rows.length = db.rows.length ∧
        db1.rows.map (fun r => r.book_id) = db.rows.map (fun r => r.book_id) ∧
        db1.find book.FileName = some
          { book_id := old.book_id
            file_name := old.file_name
            title := book.Title
            authors := serializeStringSlice book.Authors
            genres := serializeStringSlice book.Genres
            language := book.Language
            annotation := book.Annotation
            cover_data := book.CoverData
            tags := serializeStringSlice book.Tags
            series := book.Series
            series_number := book.SeriesNumber
            size := book.Size
            archive_path := book.ArchivePath
            date_added := book.DateAdded }) ∧
      (db.find book.FileName = none →
        ∃ id, (∀ r ∈ db.rows, r.book_id ≠ id) ∧
          db1.rows = db.rows ++ [
            { book_id := id
              file_name := book.FileName
              title := book.Title
              authors := serializeStringSlice book.Authors
              genres := serializeStringSlice book.Genres
              language := book.Language
              annotation := book.Annotation
              cover_data := book.CoverData
              tags := serializeStringSlice book.Tags
              series := book.Series
              series_number := book.SeriesNumber
              size := book.Size
              archive_path := book.ArchivePath
              date_added := book.DateAdded }]) := by
  refine ⟨execUpsert db book, InsertBook_ok execErr db book hx, execUpsert_valid db hv book,
    fun r hr => execUpsert_mem_other db hv book r hr, ?_, ?_⟩
  · intro old ho
    refine ⟨?_, ?_, ?_⟩
    · rw [execUpsert_length, ho]; rfl
    · rw [execUpsert_rows db hv book, ho]
      simp only [Option.isSome_some, if_true, List.map_map]
      apply List.map_congr_left
      intro r _
      simp only [Function.comp]
      split <;> rfl
    · have h := execUpsert_find db hv book book.FileName
      rw [if_pos rfl, ho] at h
      rw [h]
      rfl
  · intro hn
    refine ⟨db.nextRowid, fun r hr e => ?_, ?_⟩
    · have := lt_nextRowid db r hr
      omega
    · rw [execUpsert_rows db hv book, hn]
      rfl

/-! ## The worker loop as a sequence of statements -/

theorem processFile_fst (U : Bytes → Except Str FictionBook) (X : Book → Option Str)
    (db : DB) (f : File) :
    (processFile U X db f).1 =
      match storedBook U X f with
      | some b => execUpsert db b
      | none => db := by
  unfold processFile storedBook InsertBook
  by_cases he : Ext f.Name = ".fb2".toList
  · rw [if_neg (not_not.2 he), if_pos he]
    cases ho : f.Open with
    | error e => rfl
    | ok rc =>
      cases rc with
      | error e => rfl
      | ok data =>
        simp only
        cases hp : ParseFB2 U data with
        | error e => rfl
        | ok book =>
          simp only
          cases hx : X { book with FileName := f.Name } with
          | none => simp
          | some e => simp
  · rw [if_pos he, if_neg he]

theorem storedBook_name (U : Bytes → Except Str FictionBook) (X : Book → Option Str)
    (f : File) (b : Book) (h : storedBook U X f = some b) : b.FileName = f.Name := by
  unfold storedBook at h
  split at h
  · split at h
    · split at h
      · split at h
        · cases h; rfl
        · cases h
      · cases h
    · cases h
  · cases h

theorem runWorkers_eq_upsertAll (U : Bytes → Except Str FictionBook) (X : Book → Option Str)
    (db : DB) (files : List File) :
    runWorkers U X db files = upsertAll db (files.filterMap (storedBook U X)) := by
  unfold runWorkers upsertAll
  induction files generalizing db with
  | nil => rfl
  | cons f fs ih =>
    simp only [List.foldl_cons, List.filterMap_cons]
    rw [processFile_fst]
    cases hs : storedBook U X f with
    | none => exact ih db
    | some b => simp only [List.foldl_cons]; exact ih _

theorem upsertAll_valid (db : DB) (hv : db.Valid) (books : List Book) :
    (upsertAll db books).Valid := by
  unfold upsertAll
  induction books generalizing db with
  | nil => exact hv
  | cons b bs ih => exact ih _ (execUpsert_valid db hv b)

theorem upsertAll_append (db : DB) (bs : List Book) (b : Book) :
    upsertAll db (bs ++ [b]) = execUpsert (upsertAll db bs) b := by
  unfold upsertAll
  rw [List.foldl_append]
  rfl

theorem latest_append (bs : List Book) (b : Book) (name : Str) :
    latest (bs ++ [b]) name = if b.FileName = name then some b else latest bs name := by
  unfold latest
  rw [List.reverse_append]
  simp only [List.reverse_cons, List.reverse_nil, List.nil_append, List.singleton_append]
  by_cases h : b.FileName = name
  · rw [if_pos h]; simp [h]
  · rw [if_neg h]; simp [h]

theorem latest_cons (b : Book) (bs : List Book) (name : Str) :
    latest (b :: bs) name =
      (latest bs name).or (if b.FileName = name then some b else none) := by
  unfold latest
  rw [List.reverse_cons, List.find?_append]
  congr 1
  by_cases h : b.FileName = name
  · rw [if_pos h]; simp [h]
  · rw [if_neg h]; simp [h]

theorem latest_name (bs : List Book) (name : Str) (b : Book) (h : latest bs name = some b) :
    b ∈ bs ∧ b.FileName = name := by
  unfold latest at h
  exact ⟨List.mem_reverse.1 (List.mem_of_find?_eq_some h), by simpa using List.find?_some h⟩

theorem latest_eq_none_iff (bs : List Book) (name : Str) :
    latest bs name = none ↔ ∀ b ∈ bs, b.FileName ≠ name := by
  unfold latest
  simp

/-- Lookup after a sequence of statements, identifier aside: the last book
written under the name, or else what the table held before. -/
theorem upsertAll_find_content (db : DB) (hv : db.Valid) (bs : List Book) (name : Str) :
    ((upsertAll db bs).find name).map Row.content =
      match latest bs name with
      | some b => some (excludedRow 0 b)
      | none => (db.find name).map Row.content := by
  induction bs using List.reverseRecOn with
  | nil => rfl
  | append_singleton bs b ih =>
    rw [upsertAll_append, execUpsert_find_content _ (upsertAll_valid db hv bs), latest_append]
    by_cases h : b.FileName = name
    · rw [if_pos h.symm, if_pos h]
    · rw [if_neg (Ne.symm h), if_neg h]
      exact ih

/-- When every name written is already in the table, a sequence of statements
rewrites rows in place. -/
theorem upsertAll_rows_of_present (db : DB) (hv : db.Valid) (bs : List Book)
    (hp : ∀ b ∈ bs, (db.find b.FileName).isSome) :
    (upsertAll db bs).rows =
      db.rows.map (fun r =>
        match latest bs r.file_name with
        | some b => doUpdateSet r (excludedRow 0 b)
        | none => r) := by
  induction bs generalizing db with
  | nil => simp [upsertAll, latest]
  | cons b bs ih =>
    have hb := hp b (by simp)
    have hv1 := execUpsert_valid db hv b
    have hfind : ∀ n, ((execUpsert db b).find n).isSome = (db.find n).isSome := by
      intro n
      rw [execUpsert_find db hv b n]
      by_cases hn : n = b.FileName
      · rw [if_pos hn, hn, hb]; rfl
      · rw [if_neg hn]
    have hp1 : ∀ b1 ∈ bs, ((execUpsert db b).find b1.FileName).isSome := by
      intro b1 h1
      rw [hfind]
      exact hp b1 (List.mem_cons_of_mem _ h1)
    have step : upsertAll db (b :: bs) = upsertAll (execUpsert db b) bs := rfl
    rw [step, ih (execUpsert db b) hv1 hp1, execUpsert_rows db hv b, if_pos hb, List.map_map]
    apply List.map_congr_left
    intro r _
    simp only [Function.comp]
    rw [latest_cons]
    by_cases hn : r.file_name = b.FileName
    · rw [if_pos hn, if_pos hn.symm]
      have e : (doUpdateSet r (excludedRow 0 b)).file_name = r.file_name := rfl
      rw [e]
      cases latest bs r.file_name with
      | none => rfl
      | some b1 => rfl
    · rw [if_neg hn, if_neg (Ne.symm hn)]
      cases latest bs r.file_name with
      | none => rfl
      | some b1 => rfl

theorem doUpdateSet_eq_self (r : Row) (b : Book) (h : r.content = excludedRow 0 b) :
    doUpdateSet r (excludedRow 0 b) = r := by
  cases r
  simp only [Row.content, excludedRow, Row.mk.injEq] at h
  simp only [doUpdateSet, excludedRow, Row.mk.injEq]
  simp [h]

/-- Two valid tables with the same names have the same number of rows. -/
theorem length_eq_of_find_isSome (a b : DB) (ha : a.Valid) (hb : b.Valid)
    (h : ∀ n, (a.find n).isSome = (b.find n).isSome) : a.rows.length = b.rows.length := by
  have hperm : (a.rows.map (fun r => r.file_name)).Perm (b.rows.map (fun r => r.file_name)) := by
    rw [List.perm_ext_iff_of_nodup ha.2 hb.2]
    intro n
    have key : ∀ d : DB, n ∈ d.rows.map (fun r => r.file_name) ↔ (d.find n).isSome = true := by
      intro d
      constructor
      · intro hm
        obtain ⟨r, hr, e⟩ := List.mem_map.1 hm
        cases hf : d.find n with
        | some _ => rfl
        | none => exact absurd e ((find_eq_none_iff d n).1 hf r hr)
      · intro hs
        cases hf : d.find n with
        | none => rw [hf] at hs; cases hs
        | some r =>
          obtain ⟨hr, e⟩ := find_mem d n r hf
          exact List.mem_map.2 ⟨r, hr, e⟩
    rw [key a, key b, h n]
  simpa using hperm.length_eq

theorem sameRecords_of_content (a b : DB) (ha : a.Valid) (hb : b.Valid)
    (h : ∀ n, (a.find n).map Row.content = (b.find n).map Row.content) : SameRecords a b := by
  refine ⟨length_eq_of_find_isSome a b ha hb (fun n => ?_), h⟩
  have := congrArg Option.isSome (h n)
  simpa using this

theorem sameRecords_upsertAll (db : DB) (hv : db.Valid) (bs1 bs2 : List Book)
    (h : ∀ n, latest bs1 n = latest bs2 n) :
    SameRecords (upsertAll db bs1) (upsertAll db bs2) := by
  apply sameRecords_of_content _ _ (upsertAll_valid db hv bs1) (upsertAll_valid db hv bs2)
  intro n
  rw [upsertAll_find_content db hv, upsertAll_find_content db hv, h n]

/-- With pairwise distinct names the last book under a name is the only one,
whatever the order. -/
theorem latest_perm (bs1 bs2 : List Book) (hp : bs1.Perm bs2)
    (hd : (bs1.map (fun b => b.FileName)).Nodup) (name : Str) :
    latest bs1 name = latest bs2 name := by
  have hd2 : (bs2.map (fun b => b.FileName)).Nodup := (hp.map _).nodup_iff.1 hd
  have key : ∀ (bs : List Book), (bs.map (fun b => b.FileName)).Nodup → ∀ b,
      latest bs name = some b ↔ b ∈ bs ∧ b.FileName = name := by
    intro bs hnd b
    constructor
    · exact latest_name bs name b
    · rintro ⟨hm, hn⟩
      cases hl : latest bs name with
      | none => exact absurd hn ((latest_eq_none_iff bs name).1 hl b hm)
      | some b1 =>
        obtain ⟨hm1, hn1⟩ := latest_name bs name b1 hl
        rw [List.inj_on_of_nodup_map hnd hm1 hm (by rw [hn1, hn])]
  apply Option.ext
  intro b
  simp only [Option.mem_def]
  rw [key bs1 hd, key bs2 hd2, hp.mem_iff]

/-! ## The extension test -/

theorem extScan_nil_or_suffix (l acc : Str) :
    extScan l acc = [] ∨ extScan l acc <:+ l.reverse ++ acc := by
  induction l generalizing acc with
  | nil => left; rfl
  | cons c before ih =>
    unfold extScan
    split
    · left; rfl
    · split
      · right
        rw [List.reverse_cons, List.append_assoc]
        exact List.suffix_append _ _
      · rcases ih (c :: acc) with h | h
        · left; exact h
        · right
          rw [List.reverse_cons, List.append_assoc]
          exact h

/-- The worker's test `filepath.Ext(f.Name) != ".fb2"` is the test for the
suffix `.fb2`. -/
theorem Ext_eq_fb2_iff (path : Str) : Ext path = ".fb2".toList ↔ ".fb2".toList <:+ path := by
  constructor
  · intro h
    rcases extScan_nil_or_suffix path.reverse [] with e | e
    · unfold Ext at h
      rw [e] at h
      cases h
    · unfold Ext at h
      rw [h] at e
      simpa using e
  · rintro ⟨pre, rfl⟩
    unfold Ext
    simp [extScan]

theorem storedBook_ofBytes (U : Bytes → Except Str FictionBook) (e : Str × Bytes) :
    storedBook U noExecErr (File.ofBytes e) = extract U e := by
  unfold storedBook extract File.ofBytes noExecErr
  by_cases h : ".fb2".toList <:+ e.1
  · rw [if_pos ((Ext_eq_fb2_iff _).2 h), if_pos h]
    simp only
    cases ParseFB2 U e.2 <;> simp
  · rw [if_neg (fun x => h ((Ext_eq_fb2_iff _).1 x)), if_neg h]

theorem extract_name (U : Bytes → Except Str FictionBook) (e : Str × Bytes) (b : Book)
    (h : extract U e = some b) : b.FileName = e.1 := by
  unfold extract at h
  split at h
  · split at h
    · cases h; rfl
    · cases h
  · cases h

theorem filterMap_key_sublist {α β κ : Type} (f : α → Option β) (g : β → κ) (k : α → κ)
    (h : ∀ a b, f a = some b → g b = k a) (l : List α) :
    ((l.filterMap f).map g).Sublist (l.map k) := by
  induction l with
  | nil => simp
  | cons a t ih =>
    rw [List.filterMap_cons]
    cases hf : f a with
    | none => simpa using ih.cons _
    | some b =>
      simp only [List.map_cons]
      rw [h a b hf]
      exact ih.cons₂ _

theorem upsertAll_find_of_not_mem (db : DB) (hv : db.Valid) (bs : List Book) (name : Str)
    (h : ∀ b ∈ bs, b.FileName ≠ name) : (upsertAll db bs).find name = db.find name := by
  induction bs using List.reverseRecOn with
  | nil => rfl
  | append_singleton bs b ih =>
    rw [upsertAll_append, execUpsert_find _ (upsertAll_valid db hv bs),
      if_neg (Ne.symm (h b (by simp)))]
    exact ih (fun b1 h1 => h b1 (List.mem_append_left _ h1))

/-- C1. Order-independence of the end state.  For a table that meets its
schema and entries with pairwise distinct names (each given by its name and
bytes, the driver not failing), the store left by running the worker iteration
over any permutation of the entries holds the same records as the store left
by running it over the entries in archive order, and the same records as the
store obtained by running the `InsertBook` statement, in any order, for
`ParseFB2` of each entry that has the suffix `.fb2` and parses, filed under the
entry name.  Records are compared by row count and, name by name, on every
column but `book_id`.  An entry without the suffix or with a parse error
leaves the lookup under its name exactly as it was before the batch. -/
theorem runWorkers_order_independent (Unmarshal : Bytes → Except Str FictionBook) (db : DB)
    (entries perm : List (Str × Bytes)) (hv : db.Valid)
    (hd : (entries.map Prod.fst).Nodup) (hp : perm.Perm entries) :
    SameRecords (runWorkers Unmarshal noExecErr db (perm.map File.ofBytes))
        (runWorkers Unmarshal noExecErr db (entries.map File.ofBytes)) ∧
      (∀ books : List Book, books.Perm (entries.filterMap (extract Unmarshal)) →
        SameRecords (runWorkers Unmarshal noExecErr db (perm.map File.ofBytes))
          (upsertAll db books)) ∧
      (∀ e ∈ entries,
        (¬ ".fb2".toList <:+ e.1 ∨ ∃ err, ParseFB2 Unmarshal e.2 = .error err) →
        (runWorkers Unmarshal noExecErr db (perm.map File.ofBytes)).find e.1 = db.find e.1) := by
  have hrun : ∀ l : List (Str × Bytes),
      runWorkers Unmarshal noExecErr db (l.map File.ofBytes) =
        upsertAll db (l.filterMap (extract Unmarshal)) := by
    intro l
    rw [runWorkers_eq_upsertAll, List.filterMap_map]
    congr 1
    apply List.filterMap_congr
    intro e _
    exact storedBook_ofBytes Unmarshal e
  have hkeys : ((entries.filterMap (extract Unmarshal)).map (fun b => b.FileName)).Nodup :=
    List.Nodup.sublist
      (filterMap_key_sublist (extract Unmarshal) (fun b => b.FileName) Prod.fst
        (extract_name Unmarshal) entries) hd
  have hperm : (perm.filterMap (extract Unmarshal)).Perm (entries.filterMap (extract Unmarshal)) :=
    hp.filterMap _
  have hkeysp : ((perm.filterMap (extract Unmarshal)).map (fun b => b.FileName)).Nodup :=
    (hperm.map _).nodup_iff.2 hkeys
  refine ⟨?_, ?_, ?_⟩
  · rw [hrun, hrun]
    exact sameRecords_upsertAll db hv _ _ (fun n => latest_perm _ _ hperm hkeysp n)
  · intro books hb
    rw [hrun]
    exact sameRecords_upsertAll db hv _ _
      (fun n => latest_perm _ _ (hperm.trans hb.symm) hkeysp n)
  · intro e he hfail
    have hnone : extract Unmarshal e = none := by
      unfold extract
      rcases hfail with h | ⟨err, h⟩
      · rw [if_neg h]
      · rw [h]; simp
    rw [hrun]
    apply upsertAll_find_of_not_mem db hv
    intro b hb hname
    obtain ⟨e1, he1, hx⟩ := List.mem_filterMap.1 hb
    have hn1 := extract_name Unmarshal e1 b hx
    have he1' : e1 ∈ entries := hp.mem_iff.1 he1
    have : e1 = e := List.inj_on_of_nodup_map hd he1' he (by rw [← hn1, hname])
    rw [this, hnone] at hx
    cases hx

theorem upsertAll_rows_eq_self (db : DB) (hv : db.Valid) (bs1 bs2 : List Book)
    (h : ∀ n, latest bs1 n = latest bs2 n) :
    (upsertAll (upsertAll db bs1) bs2).rows = (upsertAll db bs1).rows := by
  have hv1 := upsertAll_valid db hv bs1
  have hfc := upsertAll_find_content db hv bs1
  have hpres : ∀ b ∈ bs2, ((upsertAll db bs1).find b.FileName).isSome := by
    intro b hb
    have h1 := hfc b.FileName
    cases hl : latest bs2 b.FileName with
    | none => exact absurd rfl ((latest_eq_none_iff bs2 _).1 hl b hb)
    | some b1 =>
      rw [h, hl] at h1
      have := congrArg Option.isSome h1
      simpa using this
  rw [upsertAll_rows_of_present _ hv1 bs2 hpres]
  conv_rhs => rw [← List.map_id (upsertAll db bs1).rows]
  apply List.map_congr_left
  intro r hr
  cases hl : latest bs2 r.file_name with
  | none => rfl
  | some b =>
    simp only [id]
    have h1 := hfc r.file_name
    rw [h, hl, (find_some_iff_of_valid _ hv1 r.file_name r).2 ⟨hr, rfl⟩] at h1
    simp only [Option.map_some', Option.some.injEq] at h1
    exact doUpdateSet_eq_self r b h1

theorem storedBooks_latest_perm (U : Bytes → Except Str FictionBook) (X : Book → Option Str)
    (l1 l2 : List File) (hp : l1.Perm l2) (hd : (l1.map File.Name).Nodup) (n : Str) :
    latest (l1.filterMap (storedBook U X)) n = latest (l2.filterMap (storedBook U X)) n := by
  apply latest_perm _ _ (hp.filterMap _)
  exact List.Nodup.sublist
    (filterMap_key_sublist (storedBook U X) (fun b => b.FileName) File.Name
      (storedBook_name U X) l1) hd

/-- C2, as amended.  Re-running a batch is idempotent on the rows when the two
runs cannot disagree on the last writer of a name: for a table that meets its
schema and an archive whose entry names are pairwise distinct (whatever the
orders in which the two runs complete their entries), or for any archive when
both runs complete the entries in the same order, the rows after the second
run, identifiers included, and their number are those after the first run. -/
theorem ProcessArchive_rerun (OpenReader : Str → Except Str (List File))
    (Unmarshal : Bytes → Except Str FictionBook) (execErr : Book → Option Str)
    (sched1 sched2 : List File → List File) (archivePath : Str) (db : DB) (hv : db.Valid)
    (hs1 : ∀ l, (sched1 l).Perm l) (hs2 : ∀ l, (sched2 l).Perm l)
    (h : ∀ files, OpenReader archivePath = .ok files →
      sched1 files = sched2 files ∨ (files.map File.Name).Nodup) :
    (ProcessArchive OpenReader Unmarshal execErr sched2 archivePath
        (ProcessArchive OpenReader Unmarshal execErr sched1 archivePath db).2).2.rows
      = (ProcessArchive OpenReader Unmarshal execErr sched1 archivePath db).2.rows ∧
    (ProcessArchive OpenReader Unmarshal execErr sched2 archivePath
        (ProcessArchive OpenReader Unmarshal execErr sched1 archivePath db).2).2.rows.length
      = (ProcessArchive OpenReader Unmarshal execErr sched1 archivePath db).2.rows.length := by
  have main : (ProcessArchive OpenReader Unmarshal execErr sched2 archivePath
        (ProcessArchive OpenReader Unmarshal execErr sched1 archivePath db).2).2.rows
      = (ProcessArchive OpenReader Unmarshal execErr sched1 archivePath db).2.rows := by
    unfold ProcessArchive
    cases ho : OpenReader archivePath with
    | error err => rfl
    | ok files =>
      simp only
      rw [runWorkers_eq_upsertAll, runWorkers_eq_upsertAll]
      apply upsertAll_rows_eq_self db hv
      intro n
      rcases h files ho with e | e
      · rw [e]
      · have p : (sched1 files).Perm (sched2 files) := (hs1 files).trans (hs2 files).symm
        have d : ((sched1 files).map File.Name).Nodup := ((hs1 files).map _).nodup_iff.2 e
        exact storedBooks_latest_perm Unmarshal execErr _ _ p d n
  exact ⟨main, by rw [main]⟩

/-! ## Failures -/

theorem dropWhile_eq_nil_iff_all (p : Char → Bool) (s : Str) :
    (∀ c ∈ s.dropWhile p, p c = true) ↔ ∀ c ∈ s, p c = true := by
  induction s with
  | nil => simp
  | cons a t ih =>
    by_cases ha : p a = true
    · rw [List.dropWhile_cons_of_pos ha, ih]
      simp [ha]
    · rw [List.dropWhile_cons_of_neg ha]

/-- `strings.TrimSpace` returns the empty string exactly on strings made of
white space only. -/
theorem TrimSpace_eq_nil_iff (s : Str) : TrimSpace s = [] ↔ ∀ c ∈ s, IsSpace c = true := by
  unfold TrimSpace
  rw [List.reverse_eq_nil_iff, List.dropWhile_eq_nil_iff]
  simp only [List.mem_reverse]
  exact dropWhile_eq_nil_iff_all IsSpace s

theorem foldl_append_singleton_map {α β : Type} (g : α → β) (l : List α) (init : List β) :
    l.foldl (fun acc a => acc ++ [g a]) init = init ++ l.map g := by
  induction l generalizing init with
  | nil => simp
  | cons a t ih => simp [ih]

theorem ParseFB2_ok_iff (U : Bytes → Except Str FictionBook) (data : Bytes) (book : Book) :
    ParseFB2 U data = .ok book ↔
      ∃ fb, U data = .ok fb ∧ TrimSpace fb.Description.TitleInfo.BookTitle ≠ [] ∧
        book =
          { ID := 0
            Title := fb.Description.TitleInfo.BookTitle
            Authors := fb.Description.TitleInfo.Authors.map (fun a => Join (fullName a) [' '])
            Genres := fb.Description.TitleInfo.Genres
            Language := fb.Description.TitleInfo.Lang
            Annotation := TrimSpace fb.Description.TitleInfo.Annotation.Text
            CoverData := []
            FileName := []
            Tags := []
            Series := []
            SeriesNumber := 0
            Size := 0
            ArchivePath := []
            DateAdded := [] } := by
  unfold ParseFB2
  cases hu : U data with
  | error e => simp
  | ok fb =>
    simp only
    by_cases ht : TrimSpace fb.Description.TitleInfo.BookTitle = []
    · rw [if_pos ht]
      simp [ht]
    · rw [if_neg ht, foldl_append_singleton_map]
      simp only [List.nil_append, Except.ok.injEq, exists_eq_left', ne_eq, ht, not_false_eq_true,
        true_and]
      exact eq_comm

theorem execUpsert_title (db : DB) (book : Book) (P : Str → Prop) (hb : P book.Title)
    (h : ∀ r ∈ db.rows, P r.title) : ∀ r ∈ (execUpsert db book).rows, P r.title := by
  unfold execUpsert
  simp only [excludedRow]
  cases db.find book.FileName with
  | none =>
    simp only [List.mem_append, List.mem_singleton]
    rintro r (hr | hr)
    · exact h r hr
    · rw [hr]; exact hb
  | some old =>
    simp only [List.mem_map]
    rintro r ⟨a, ha, e⟩
    by_cases hi : a.book_id = old.book_id
    · rw [if_pos hi] at e
      rw [← e]; exact hb
    · rw [if_neg hi] at e
      rw [← e]; exact h a ha

theorem processFile_outcome_indep (U : Bytes → Except Str FictionBook) (X : Book → Option Str)
    (d1 d2 : DB) (f : File) : (processFile U X d1 f).2 = (processFile U X d2 f).2 := by
  unfold processFile InsertBook
  split
  · rfl
  · cases f.Open with
    | error e => rfl
    | ok rc =>
      cases rc with
      | error e => rfl
      | ok data =>
        simp only
        cases ParseFB2 U data with
        | error e => rfl
        | ok book =>
          simp only
          cases X { book with FileName := f.Name } <;> rfl

theorem processFile_failure_fst (U : Bytes → Except Str FictionBook) (X : Book → Option Str)
    (d : DB) (f : File) (h : (processFile U X d f).2.isFailure = true) :
    (processFile U X d f).1 = d := by
  unfold processFile InsertBook at *
  split
  · rfl
  · rename_i he
    rw [if_neg he] at h
    cases ho : f.Open with
    | error e => rfl
    | ok rc =>
      cases rc with
      | error e => rfl
      | ok data =>
        rw [ho] at h
        simp only at h ⊢
        cases hp : ParseFB2 U data with
        | error e => rfl
        | ok book =>
          rw [hp] at h
          simp only at h ⊢
          cases hx : X { book with FileName := f.Name } with
          | some e => rfl
          | none =>
            rw [hx] at h
            simp [Outcome.isFailure] at h

/-- C5. `ProcessArchive` returns an error exactly when the archive cannot be
opened, and then leaves the store alone; for an archive that opens it returns
nil whatever happens to the entries.  A worker iteration that ends in a failure
(open, read, parse or insert) leaves the store as it found it, so the store
after a batch is the store after the same batch without the failing entry,
wherever in the completion order that entry stands. -/
theorem ProcessArchive_error_iff (OpenReader : Str → Except Str (List File))
    (Unmarshal : Bytes → Except Str FictionBook) (execErr : Book → Option Str)
    (sched : List File → List File) (archivePath : Str) (db : DB) :
    ((ProcessArchive OpenReader Unmarshal execErr sched archivePath db).1 ≠ none ↔
        ∃ err, OpenReader archivePath = .error err) ∧
      (∀ err, OpenReader archivePath = .error err →
        ProcessArchive OpenReader Unmarshal execErr sched archivePath db = (some err, db)) ∧
      (∀ files, OpenReader archivePath = .ok files →
        (ProcessArchive OpenReader Unmarshal execErr sched archivePath db).1 = none) ∧
      (∀ (d0 : DB) (f : File), (processFile Unmarshal execErr d0 f).2.isFailure = true →
        (∀ d, processFile Unmarshal execErr d f = (d, (processFile Unmarshal execErr d0 f).2)) ∧
        ∀ (d : DB) (before after : List File),
          runWorkers Unmarshal execErr d (before ++ f :: after) =
            runWorkers Unmarshal execErr d (before ++ after)) := by
  refine ⟨?_, ?_, ?_, ?_⟩
  · unfold ProcessArchive
    cases OpenReader archivePath <;> simp
  · intro err h
    unfold ProcessArchive
    rw [h]
  · intro files h
    unfold ProcessArchive
    rw [h]
  · intro d0 f hf
    have hstep : ∀ d, processFile Unmarshal execErr d f
        = (d, (processFile Unmarshal execErr d0 f).2) := by
      intro d
      have h2 := processFile_outcome_indep Unmarshal execErr d d0 f
      have h1 := processFile_failure_fst Unmarshal execErr d f (by rw [h2]; exact hf)
      exact Prod.ext h1 h2
    refine ⟨hstep, fun d before after => ?_⟩
    unfold runWorkers
    rw [List.foldl_append, List.foldl_append, List.foldl_cons, hstep]

/-- C4. `ParseFB2` rejects a blank title: when the decoded `book-title` is
empty or made of white space only it returns the error `missing book title`
and no book, and every book it returns has a title that is non-empty after
trimming.  A worker iteration on an entry with such a title leaves the store as
it found it, and a batch never adds a row with a blank title to a store that
has none. -/
theorem ParseFB2_blank_title (Unmarshal : Bytes → Except Str FictionBook)
    (execErr : Book → Option Str) :
    (∀ data fb, Unmarshal data = .ok fb →
        (∀ c ∈ fb.Description.TitleInfo.BookTitle, IsSpace c = true) →
        ParseFB2 Unmarshal data = .error "missing book title".toList) ∧
      (∀ data book, ParseFB2 Unmarshal data = .ok book →
        TrimSpace book.Title ≠ [] ∧ ∃ c ∈ book.Title, IsSpace c = false) ∧
      (∀ (db : DB) (f : File) data fb, f.Open = .ok (.ok data) → Unmarshal data = .ok fb →
        (∀ c ∈ fb.Description.TitleInfo.BookTitle, IsSpace c = true) →
        (processFile Unmarshal execErr db f).1 = db ∧
          ((processFile Unmarshal execErr db f).2 = .skipped ∨
            (processFile Unmarshal execErr db f).2
              = .parseFailed "missing book title".toList)) ∧
      (∀ (db : DB) (files : List File), (∀ r ∈ db.rows, TrimSpace r.title ≠ []) →
        ∀ r ∈ (runWorkers Unmarshal execErr db files).rows, TrimSpace r.title ≠ []) := by
  have hblank : ∀ data fb, Unmarshal data = .ok fb →
      (∀ c ∈ fb.Description.TitleInfo.BookTitle, IsSpace c = true) →
      ParseFB2 Unmarshal data = .error "missing book title".toList := by
    intro data fb hu hs
    unfold ParseFB2
    rw [hu]
    simp only
    rw [if_pos ((TrimSpace_eq_nil_iff _).2 hs)]
  have hok : ∀ data book, ParseFB2 Unmarshal data = .ok book → TrimSpace book.Title ≠ [] := by
    intro data book h
    obtain ⟨fb, _, ht, rfl⟩ := (ParseFB2_ok_iff Unmarshal data book).1 h
    exact ht
  refine ⟨hblank, ?_, ?_, ?_⟩
  · intro data book h
    refine ⟨hok data book h, ?_⟩
    by_contra hc
    push_neg at hc
    exact hok data book h ((TrimSpace_eq_nil_iff _).2 (fun c hcm => by simpa using hc c hcm))
  · intro db f data fb ho hu hs
    have hp := hblank data fb hu hs
    unfold processFile
    split
    · exact ⟨rfl, Or.inl rfl⟩
    · rw [ho]
      simp only
      rw [hp]
      exact ⟨rfl, Or.inr rfl⟩
  · intro db files
    rw [runWorkers_eq_upsertAll]
    have hbooks : ∀ b ∈ files.filterMap (storedBook Unmarshal execErr),
        TrimSpace b.Title ≠ [] := by
      intro b hb
      obtain ⟨f, _, hf⟩ := List.mem_filterMap.1 hb
      unfold storedBook at hf
      split at hf
      · split at hf
        · rename_i data _
          split at hf
          · rename_i book hpb
            split at hf
            · cases hf
              exact hok data book hpb
            · cases hf
          · cases hf
        · cases hf
      · cases hf
    generalize files.filterMap (storedBook Unmarshal execErr) = bs at hbooks
    unfold upsertAll
    induction bs generalizing db with
    | nil => intro h; exact h
    | cons b bs ih =>
      intro h
      simp only [List.foldl_cons]
      apply ih _ (fun b1 h1 => hbooks b1 (List.mem_cons_of_mem _ h1))
      exact execUpsert_title db b (fun t => TrimSpace t ≠ []) (hbooks b (by simp)) h

/-! ## Author names -/

theorem Join_eq_intercalate (l : List Str) (sep : Str) : Join l sep = sep.intercalate l := by
  induction l with
  | nil => rfl
  | cons a t ih =>
    cases t with
    | nil => simp [Join, List.intercalate]
    | cons b rest =>
      rw [Join_cons_cons, ih]
      simp [List.intercalate, List.intersperse]

theorem fullName_eq_filter (a : Author) :
    fullName a = [a.FirstName, a.MiddleName, a.LastName].filter (fun p => decide (p ≠ [])) := by
  unfold fullName
  by_cases h1 : a.FirstName = [] <;> by_cases h2 : a.MiddleName = [] <;>
    by_cases h3 : a.LastName = [] <;> simp [h1, h2, h3]

theorem Join_head_tail (l : List Str) (sep : Str) :
    (∀ p, l.head? = some p → p <+: Join l sep) ∧ (∀ p, l.getLast? = some p → p <:+ Join l sep) := by
  induction l with
  | nil => simp
  | cons a t ih =>
    cases t with
    | nil =>
      simp [Join]
    | cons b rest =>
      rw [Join_cons_cons]
      constructor
      · intro p hp
        simp only [List.head?_cons, Option.some.injEq] at hp
        subst hp
        rw [List.append_assoc]
        exact List.prefix_append _ _
      · intro p hp
        rw [List.getLast?_cons_cons] at hp
        exact (ih.2 p hp).trans (List.suffix_append _ _)

theorem Join_eq_nil_of_parts (l : List Str) (sep : Str) (hl : ∀ p ∈ l, p ≠ []) :
    Join l sep = [] ↔ l = [] := by
  cases l with
  | nil => simp [Join]
  | cons a t =>
    have ha : a ≠ [] := hl a (by simp)
    cases t with
    | nil => simp [Join, ha]
    | cons b rest => rw [Join_cons_cons]; simp [ha]

/-- C9. On a document that decodes and has a non-blank title, `ParseFB2`
returns a book whose author list has one name per `author` element, in document
order, each name being the non-empty parts among first, middle and last name,
in that order, joined by one space: the name begins with its first part and
ends with its last part, and it is empty exactly when the three parts are
empty.  The genres are the decoded genres, unchanged. -/
theorem ParseFB2_authors (Unmarshal : Bytes → Except Str FictionBook) (data : Bytes)
    (fb : FictionBook) (hu : Unmarshal data = .ok fb)
    (ht : TrimSpace fb.Description.TitleInfo.BookTitle ≠ []) :
    ∃ book, ParseFB2 Unmarshal data = .ok book ∧
      book.Authors.length = fb.Description.TitleInfo.Authors.length ∧
      book.Authors = fb.Description.TitleInfo.Authors.map (fun a =>
        [' '].intercalate
          ([a.FirstName, a.MiddleName, a.LastName].filter (fun p => decide (p ≠ [])))) ∧
      (∀ (i : Nat) (a : Author) (name : Str),
        fb.Description.TitleInfo.Authors[i]? = some a → book.Authors[i]? = some name →
        (∀ p, ([a.FirstName, a.MiddleName, a.LastName].filter
            (fun p => decide (p ≠ []))).head? = some p → p <+: name) ∧
        (∀ p, ([a.FirstName, a.MiddleName, a.LastName].filter
            (fun p => decide (p ≠ []))).getLast? = some p → p <:+ name) ∧
        (name = [] ↔ a.FirstName = [] ∧ a.MiddleName = [] ∧ a.LastName = [])) ∧
      book.Genres = fb.Description.TitleInfo.Genres := by
  refine ⟨_, (ParseFB2_ok_iff Unmarshal data _).2 ⟨fb, hu, ht, rfl⟩, ?_, ?_, ?_, rfl⟩
  · simp
  · simp only
    apply List.map_congr_left
    intro a _
    rw [Join_eq_intercalate, fullName_eq_filter]
  · intro i a name ha hn
    simp only [List.getElem?_map, ha, Option.map_some', Option.some.injEq] at hn
    subst hn
    rw [fullName_eq_filter]
    refine ⟨(Join_head_tail _ _).1, (Join_head_tail _ _).2, ?_⟩
    rw [Join_eq_nil_of_parts _ _ (fun p hp => by simpa using (List.mem_filter.1 hp).2)]
    simp [List.filter_eq_nil_iff]

/-! ## Folder names of the export -/

theorem digitChar_props (d : Nat) (h : d < 10) :
    (Nat.digitChar d).toNat = 48 + d := by
  interval_cases d <;> rfl

theorem decimalDigits_chars (fuel n : Nat) :
    ∀ c ∈ decimalDigits fuel n, 48 ≤ c.toNat ∧ c.toNat ≤ 57 := by
  induction fuel generalizing n with
  | zero => simp [decimalDigits]
  | succ k ih =>
    unfold decimalDigits
    split
    · rename_i h
      intro c hc
      simp only [List.mem_singleton] at hc
      rw [hc, digitChar_props n h]
      omega
    · intro c hc
      rcases List.mem_append.1 hc with h1 | h1
      · exact ih _ c h1
      · simp only [List.mem_singleton] at h1
        rw [h1, digitChar_props (n % 10) (Nat.mod_lt _ (by decide))]
        have := Nat.mod_lt n (show 0 < 10 by decide)
        omega

/-- Reading the digits back. -/
theorem decimalDigits_value (fuel n : Nat) (h : n < fuel) :
    (decimalDigits fuel n).foldl (fun acc c => 10 * acc + (c.toNat - 48)) 0 = n := by
  induction fuel generalizing n with
  | zero => omega
  | succ k ih =>
    unfold decimalDigits
    split
    · rename_i h10
      simp [digitChar_props n h10]
    · rename_i h10
      rw [List.foldl_append, ih (n / 10) (by omega)]
      simp only [List.foldl_cons, List.foldl_nil]
      rw [digitChar_props (n % 10) (Nat.mod_lt _ (by decide))]
      omega

theorem natDecimal_injective (m n : Nat) (h : natDecimal m = natDecimal n) : m = n := by
  have h1 := decimalDigits_value (m + 1) m (by omega)
  have h2 := decimalDigits_value (n + 1) n (by omega)
  unfold natDecimal at h
  rw [h] at h1
  omega

theorem formatInt_chars (i : Int) : '_' ∉ formatInt i := by
  intro hm
  unfold formatInt at hm
  have key : ∀ n, '_' ∉ natDecimal n := by
    intro n hn
    have := decimalDigits_chars (n + 1) n '_' hn
    have e : '_'.toNat = 95 := rfl
    omega
  split at hm
  · rcases List.mem_cons.1 hm with h | h
    · cases h
    · exact key _ h
  · exact key _ hm

theorem formatInt_injective (i j : Int) (h : formatInt i = formatInt j) : i = j := by
  have hd : ∀ n rest, natDecimal n ≠ '-' :: rest := by
    intro n rest e
    have := decimalDigits_chars (n + 1) n '-' (by
      show '-' ∈ natDecimal n
      rw [e]; simp)
    have e2 : '-'.toNat = 45 := rfl
    omega
  unfold formatInt at h
  by_cases hi : i < 0 <;> by_cases hj : j < 0
  · rw [if_pos hi, if_pos hj] at h
    have := natDecimal_injective _ _ (List.cons.inj h).2
    omega
  · rw [if_pos hi, if_neg hj] at h
    exact absurd h.symm (hd _ _)
  · rw [if_neg hi, if_pos hj] at h
    exact absurd h (hd _ _)
  · rw [if_neg hi, if_neg hj] at h
    have := natDecimal_injective _ _ h
    omega

theorem tail_eq_of_append_sep {α : Type} (x : α) (a c b d : List α) (hb : x ∉ b) (hd : x ∉ d)
    (h : a ++ x :: b = c ++ x :: d) : b = d := by
  induction a generalizing c with
  | nil =>
    cases c with
    | nil => exact (List.cons.inj h).2
    | cons y c1 =>
      have := (List.cons.inj h).2
      exact absurd (by rw [this]; simp) hb
  | cons y a1 ih =>
    cases c with
    | nil =>
      have := (List.cons.inj h).2
      exact absurd (by rw [← this]; simp) hd
    | cons z c1 => exact ih c1 (List.cons.inj h).2

theorem bookDirName_ne (caseTable : Char → Char) (b1 b2 : Book) (h : b1.ID ≠ b2.ID) :
    bookDirName caseTable b1 ≠ bookDirName caseTable b2 := by
  intro e
  unfold bookDirName at e
  simp only [List.append_assoc, List.singleton_append] at e
  exact h (formatInt_injective _ _
    (tail_eq_of_append_sep '_' _ _ _ _ (formatInt_chars _) (formatInt_chars _) e))

/-- C7. The export key never collides: two books with different identifiers
get different folder names, whatever their titles, and so the folder names
`ExportToHugo` creates for a table that meets its schema are pairwise
distinct. -/
theorem bookDirName_no_collision (caseTable : Char → Char) :
    (∀ b1 b2 : Book, b1.ID ≠ b2.ID → bookDirName caseTable b1 ≠ bookDirName caseTable b2) ∧
      (∀ db : DB, db.Valid → (ExportToHugo caseTable db).Nodup) := by
  refine ⟨bookDirName_ne caseTable, fun db hv => ?_⟩
  unfold ExportToHugo GetAllBooks
  rw [List.map_map]
  apply List.Nodup.map_on _ (List.Nodup.of_map _ hv.1)
  intro r1 h1 r2 h2 e
  by_contra hne
  have hid : r1.book_id ≠ r2.book_id := fun x => hne (List.inj_on_of_nodup_map hv.1 h1 h2 x)
  apply bookDirName_ne caseTable (scanRow r1) (scanRow r2) _ e
  simp only [scanRow]
  intro x
  exact hid (Int.ofNat.inj x)

/-- C8. `safeFileName` lets path separators through: the title `AC/DC Live`
becomes `ac/dc-live`, and `..\..\x` is returned as it is, so the folder name
built from a title is not always a single path component. -/
theorem safeFileName_keeps_separators (caseTable : Char → Char) :
    safeFileName caseTable "AC/DC Live".toList = "ac/dc-live".toList ∧
      '/' ∈ safeFileName caseTable "AC/DC Live".toList ∧
      '\\' ∈ safeFileName caseTable "..\\..\\x".toList ∧
      bookDirName caseTable
          { ID := 7, Title := "AC/DC Live".toList, Authors := [], Genres := [], Language := [],
            Annotation := [], CoverData := [], FileName := "acdc.fb2".toList, Tags := [],
            Series := [], SeriesNumber := 0, Size := 0, ArchivePath := [], DateAdded := [] }
        = "ac/dc-live_7".toList := by
  have e1 : safeFileName caseTable "AC/DC Live".toList = "ac/dc-live".toList := rfl
  have e2 : safeFileName caseTable "..\\..\\x".toList = "..\\..\\x".toList := rfl
  refine ⟨e1, ?_, ?_, rfl⟩
  · rw [e1]; decide
  · rw [e2]; decide

/-- C10. The list encoding of the store round-trips exactly on comma-free
lists: decoding the encoding of a list gives the list back if and only if no
element holds a comma and the list is not the single empty string.  So, after
`InsertBook` has written a book into a table that meets its schema,
`GetAllBooks` returns exactly one book under its file name, and the authors,
the genres and the tags of that book are those written exactly under that
condition on the respective list. -/
theorem stringSlice_roundtrip_iff :
    (∀ s : List Str, deserializeStringSlice (serializeStringSlice s) = s ↔
        ((∀ x ∈ s, ',' ∉ x) ∧ s ≠ [[]])) ∧
      (∀ (execErr : Book → Option Str) (db : DB) (book : Book), db.Valid →
        execErr book = none →
        ∃ db1, InsertBook execErr db book = .ok db1 ∧
          ∃ b ∈ GetAllBooks db1, b.FileName = book.FileName ∧
            (∀ b1 ∈ GetAllBooks db1, b1.FileName = book.FileName → b1 = b) ∧
            (b.Authors = book.Authors ↔ ((∀ x ∈ book.Authors, ',' ∉ x) ∧ book.Authors ≠ [[]])) ∧
            (b.Genres = book.Genres ↔ ((∀ x ∈ book.Genres, ',' ∉ x) ∧ book.Genres ≠ [[]])) ∧
            (b.Tags = book.Tags ↔ ((∀ x ∈ book.Tags, ',' ∉ x) ∧ book.Tags ≠ [[]]))) := by
  refine ⟨deserialize_serialize_iff, ?_⟩
  intro execErr db book hv hx
  refine ⟨execUpsert db book, InsertBook_ok execErr db book hx, ?_⟩
  have hv1 := execUpsert_valid db hv book
  obtain ⟨id, hf, _, _⟩ := execUpsert_find_self db hv book
  obtain ⟨hm, _⟩ := find_mem _ _ _ hf
  refine ⟨scanRow (excludedRow id book), List.mem_map.2 ⟨_, hm, rfl⟩, rfl, ?_, ?_, ?_, ?_⟩
  · intro b1 hb1 hn
    obtain ⟨r, hr, rfl⟩ := List.mem_map.1 hb1
    have : r.file_name = book.FileName := hn
    have := (find_some_iff_of_valid _ hv1 book.FileName r).2 ⟨hr, this⟩
    rw [hf] at this
    cases this
    rfl
  · exact deserialize_serialize_iff book.Authors
  · exact deserialize_serialize_iff book.Genres
  · exact deserialize_serialize_iff book.Tags

/-! ## The properties at concrete inputs -/

/-- C1 at a concrete input: the four demo entries, processed in archive order
and in reverse order, starting from the empty store. -/
theorem runWorkers_order_independent_witness :
    emptyDB.Valid ∧ (demoEntries.map Prod.fst).Nodup ∧ demoEntries.reverse.Perm demoEntries ∧
      SameRecords (runWorkers demoUnmarshal noExecErr emptyDB (demoEntries.reverse.map File.ofBytes))
        (runWorkers demoUnmarshal noExecErr emptyDB (demoEntries.map File.ofBytes)) ∧
      (runWorkers demoUnmarshal noExecErr emptyDB (demoEntries.reverse.map File.ofBytes)).find
          "c.txt".toList = none :=
  ⟨by decide, by decide, List.reverse_perm _,
    (runWorkers_order_independent demoUnmarshal emptyDB demoEntries demoEntries.reverse
      (by decide) (by decide) (List.reverse_perm _)).1,
    (runWorkers_order_independent demoUnmarshal emptyDB demoEntries demoEntries.reverse
      (by decide) (by decide) (List.reverse_perm _)).2.2 ("c.txt".toList, [88]) (by decide)
      (Or.inl (by decide))⟩

/-- C2, counterexample.  An archive with two entries named `a.fb2`, titled `X`
and `Y`: the first run completes them in archive order and leaves the title
`Y`, the second run completes them in the other order and leaves `X`. -/
theorem ProcessArchive_rerun_differs :
    emptyDB.Valid ∧ (id dupFiles).Perm dupFiles ∧ (List.reverse dupFiles).Perm dupFiles ∧
      (ProcessArchive (fun _ => .ok dupFiles) demoUnmarshal noExecErr List.reverse []
          (ProcessArchive (fun _ => .ok dupFiles) demoUnmarshal noExecErr id [] emptyDB).2).2.rows
        ≠ (ProcessArchive (fun _ => .ok dupFiles) demoUnmarshal noExecErr id [] emptyDB).2.rows :=
  ⟨by decide, List.Perm.refl _, List.reverse_perm _, by decide⟩

/-- C2 as amended, at a concrete input: the four demo entries, completed in
archive order by the first run and in reverse order by the second. -/
theorem ProcessArchive_rerun_witness :
    emptyDB.Valid ∧ ((demoEntries.map File.ofBytes).map File.Name).Nodup ∧
      (ProcessArchive (fun _ => .ok (demoEntries.map File.ofBytes)) demoUnmarshal noExecErr
          List.reverse []
          (ProcessArchive (fun _ => .ok (demoEntries.map File.ofBytes)) demoUnmarshal noExecErr
            id [] emptyDB).2).2.rows
        = (ProcessArchive (fun _ => .ok (demoEntries.map File.ofBytes)) demoUnmarshal noExecErr
            id [] emptyDB).2.rows :=
  ⟨by decide, by decide,
    (ProcessArchive_rerun (fun _ => .ok (demoEntries.map File.ofBytes)) demoUnmarshal noExecErr
      id List.reverse [] emptyDB (by decide) (fun l => List.Perm.refl l)
      (fun l => List.reverse_perm l)
      (fun files ho => Or.inr (by cases ho; decide))).1⟩

/-- C3 at a concrete input: the demo book written over the row filed under the
same name. -/
theorem InsertBook_upsert_witness :
    demoDB.Valid ∧ noExecErr demoBook = none ∧ demoDB.find demoBook.FileName = some demoRow ∧
      ∃ db1, InsertBook noExecErr demoDB demoBook = .ok db1 ∧ db1.rows.length = 1 ∧
        db1.find "a.fb2".toList = some
          { demoRow with
            title := "Foo".toList, authors := "Lee, Ann".toList, genres := "sf".toList,
            language := "en".toList } :=
  ⟨by decide, rfl, by decide,
    (InsertBook_upsert noExecErr demoDB demoBook (by decide) rfl).elim
      (fun db1 h => ⟨db1, h.1, (h.2.2.2.1 demoRow (by decide)).1,
        (h.2.2.2.1 demoRow (by decide)).2.2⟩)⟩

/-- C4 at a concrete input: a document whose title is a space and a tab. -/
theorem ParseFB2_blank_title_witness :
    (∀ c ∈ [' ', '\t'], IsSpace c = true) ∧
      ParseFB2 demoUnmarshal [32, 9] = .error "missing book title".toList ∧
      (processFile demoUnmarshal noExecErr demoDB (File.ofBytes ("e.fb2".toList, [32, 9]))).1
        = demoDB :=
  ⟨by decide,
    (ParseFB2_blank_title demoUnmarshal noExecErr).1 [32, 9] _ rfl (by decide),
    ((ParseFB2_blank_title demoUnmarshal noExecErr).2.2.1 demoDB
      (File.ofBytes ("e.fb2".toList, [32, 9])) [32, 9] _ rfl rfl (by decide)).1⟩

/-- C5 at a concrete input: an entry that cannot be opened, between two
entries that are stored. -/
theorem ProcessArchive_error_iff_witness :
    (processFile demoUnmarshal noExecErr emptyDB brokenFile).2.isFailure = true ∧
      (ProcessArchive (fun _ => .ok [brokenFile]) demoUnmarshal noExecErr id [] emptyDB).1
        = none ∧
      runWorkers demoUnmarshal noExecErr emptyDB
          ([File.ofBytes ("a.fb2".toList, [70])] ++ brokenFile ::
            [File.ofBytes ("d.fb2".toList, [66])])
        = runWorkers demoUnmarshal noExecErr emptyDB
          ([File.ofBytes ("a.fb2".toList, [70])] ++ [File.ofBytes ("d.fb2".toList, [66])]) :=
  ⟨by decide,
    (ProcessArchive_error_iff (fun _ => .ok [brokenFile]) demoUnmarshal noExecErr id []
      emptyDB).2.2.1 [brokenFile] rfl,
    ((ProcessArchive_error_iff (fun _ => .ok [brokenFile]) demoUnmarshal noExecErr id []
      emptyDB).2.2.2 emptyDB brokenFile (by decide)).2 emptyDB _ _⟩

/-- C7 at a concrete input: two books with the same title and the identifiers
1 and 12. -/
theorem bookDirName_no_collision_witness :
    ({ demoBook with ID := 1 } : Book).ID ≠ ({ demoBook with ID := 12 } : Book).ID ∧
      bookDirName id { demoBook with ID := 1 } ≠ bookDirName id { demoBook with ID := 12 } ∧
      (ExportToHugo id demoDB).Nodup :=
  ⟨by decide, (bookDirName_no_collision id).1 _ _ (by decide),
    (bookDirName_no_collision id).2 demoDB (by decide)⟩

/-- C9 at a concrete input: a document with the authors Leo Tolstoy and one
without any name part. -/
theorem ParseFB2_authors_witness :
    TrimSpace demoFictionBook.Description.TitleInfo.BookTitle ≠ [] ∧
      ∃ book, ParseFB2 (fun _ => .ok demoFictionBook) [] = .ok book ∧
        book.Authors = ["Leo Tolstoy".toList, []] ∧
        book.Genres = ["prose".toList, "history".toList] :=
  ⟨by decide,
    (ParseFB2_authors (fun _ => .ok demoFictionBook) [] demoFictionBook rfl (by decide)).elim
      (fun book h => ⟨book, h.1, h.2.2.1.trans (by decide), h.2.2.2.2⟩)⟩

/-- C10 at a concrete input: the demo book, whose author holds a comma and
whose genre does not, written into the demo store. -/
theorem stringSlice_roundtrip_iff_witness :
    demoDB.Valid ∧ noExecErr demoBook = none ∧
      deserializeStringSlice (serializeStringSlice demoBook.Authors) ≠ demoBook.Authors ∧
      ∃ db1, InsertBook noExecErr demoDB demoBook = .ok db1 ∧
        ∃ b ∈ GetAllBooks db1, b.FileName = demoBook.FileName ∧
          b.Authors ≠ demoBook.Authors ∧ b.Genres = demoBook.Genres :=
  ⟨by decide, rfl,
    fun h => absurd ((stringSlice_roundtrip_iff.1 demoBook.Authors).1 h) (by decide),
    (stringSlice_roundtrip_iff.2 noExecErr demoDB demoBook (by decide) rfl).elim
      (fun db1 h => ⟨db1, h.1, h.2.elim (fun b hb => ⟨b, hb.1, hb.2.1,
        fun e => absurd (hb.2.2.2.1.1 e) (by decide),
        hb.2.2.2.2.1.2 (by decide)⟩)⟩)⟩

end Golibfb2
